import Mathlib

/-!
Verification of the download queue manager (`src/services/queue_manager.py`).

Shallow embedding of `QueueManager` from `src/services/queue_manager.py`.

Modelling conventions:

* `QueueItem` mirrors the Python dataclass.  The opaque callback handles
  (`on_progress`, `on_complete`) are not stored in the record; whether the
  wrapper callbacks inside `_process_item` ran is recorded instead in the
  ghost trace fields `progress_calls` / `complete_calls` of the state.
* Python `float` progress is modelled by `Rat`: the manager only ever
  assigns and compares progress values (0.0, 100.0, callback percentages),
  it performs no float arithmetic, so exact rationals are a faithful model.
* `uuid.uuid4()` is modelled by a ghost counter `next_id`; the only property
  the code relies on is freshness.
* The worker thread (`_worker_loop` / `_process_item`) is modelled as a
  small-step interpreter: `pc : WorkerPC` is the worker's control point and
  `workerStep` executes one atomic region (each region's reads/writes match
  one lock-protected section or one plain statement of the source).
  `pc = .idle` models "no worker thread alive".
* The executor (`DownloadManager.start_download_thread`) runs on its own
  thread and calls the wrapper callbacks of `_process_item`; an in-flight
  download is an `InFlight` record, and the environment actions
  `fire_progress` / `fire_complete` model the executor invoking the
  wrappers.  The wrapper closures capture the popped item object: their
  writes are visible in the store exactly when that object is still the
  `current_item` reference (object identity = the unique item id).
* `threading.Lock` is not reentrant: acquiring a lock already held by the
  same thread blocks forever.  `withLock` makes this explicit for the pair
  of operations where it matters (`retry_item` calls `get_item` while
  already holding the lock); `none` models a call that never returns.
  All other facade operations take the lock only once and are modelled as
  atomic state transformers.
* `retry_item` is not an action of the transition system: as proved below
  it blocks before performing any state mutation, so it contributes no
  reachable states.
-/

/-! Section: Definitions: the shallow embedding and the concrete scenario states -/

/-- Status enum `DownloadStatus` from `queue_manager.py` (lines 13-20). -/
inductive DownloadStatus where
  | queued
  | downloading
  | paused
  | completed
  | error
  | cancelled
deriving DecidableEq, Repr

/-- The `QueueItem` dataclass (lines 23-38), without the opaque callback fields. -/
structure QueueItem where
  id : Nat
  url : String
  title : String
  path : String
  mode : String
  status : DownloadStatus := .queued
  progress : Rat := 0
  error_message : Option String := none
  file_path : Option String := none
  video_id : Option String := none
deriving DecidableEq, Repr

/-- One executor invocation spawned by `_process_item`: the download's item id
and whether its `download_complete` event has been set by the completion
wrapper (line 309). -/
structure InFlight where
  id : Nat
  fired : Bool
deriving DecidableEq, Repr

/-- Control point of the worker thread inside `_worker_loop`/`_process_item`. -/
inductive WorkerPC where
  /-- no worker thread alive -/
  | idle
  /-- top of the `while True` loop (line 240) -/
  | top
  /-- just popped the head into `current_item` (after line 253) -/
  | popped
  /-- entering `_process_item` (line 275) -/
  | procStart
  /-- inside the wait loop of `_process_item` (line 322) -/
  | waiting
  /-- about to clear `current_item` (line 263) -/
  | clearCur
deriving DecidableEq, Repr

/-- The `QueueManager` object state plus ghost trace fields. -/
structure QMState where
  /-- `self.queue` -/
  queue : List QueueItem
  /-- `self.current_item` -/
  current_item : Option QueueItem
  /-- `self._paused` -/
  paused : Bool
  /-- `self._stop_event` -/
  stop_event : Bool
  /-- worker thread control point (`self._worker_thread`) -/
  pc : WorkerPC
  /-- whether `set_download_manager` has been called (`self._download_manager`) -/
  dm : Bool
  /-- ghost: fresh-id counter modelling `uuid.uuid4()` -/
  next_id : Nat
  /-- executor invocations spawned by `_process_item` and their done events -/
  inflight : List InFlight
  /-- ghost: item ids in the order `add_item` accepted them -/
  add_log : List Nat
  /-- ghost: item ids in the order the executor was invoked for them -/
  exec_log : List Nat
  /-- ghost: item ids for which the progress wrapper ran -/
  progress_calls : List Nat
  /-- ghost: item ids for which the completion wrapper ran -/
  complete_calls : List Nat
deriving DecidableEq, Repr

/-- The state of a freshly constructed `QueueManager` (lines 49-57), with the
download manager injected or not. -/
def initState (dm : Bool) : QMState :=
  { queue := [], current_item := none, paused := false, stop_event := false,
    pc := .idle, dm := dm, next_id := 0, inflight := [], add_log := [],
    exec_log := [], progress_calls := [], complete_calls := [] }

/-- Model of `with self._lock:` — acquiring a Python `threading.Lock` that is already
held by the same thread blocks forever (`none`); otherwise the body runs. -/
def withLock (lockHeld : Bool) : Option Unit :=
  if lockHeld then none else some ()

/-- Body of `get_item` (lines 123-129): scan the pending queue, then check the
current item. -/
def get_item_body (s : QMState) (item_id : Nat) : Option QueueItem :=
  match s.queue.find? (fun it => it.id == item_id) with
  | some it => some it
  | none =>
    match s.current_item with
    | some c => if c.id == item_id then some c else none
    | none => none

/-- Operation `get_item` (lines 113-129): takes the lock, then runs the body.
`lockHeld` is the state of `self._lock` at call time for the calling thread. -/
def get_item (lockHeld : Bool) (s : QMState) (item_id : Nat) :
    Option (Option QueueItem) :=
  match withLock lockHeld with
  | none => none
  | some _ => some (get_item_body s item_id)

/-- Operation `get_all_items` (lines 131-142): copy of the queue with the current item
prepended. -/
def get_all_items (s : QMState) : List QueueItem :=
  match s.current_item with
  | some c => c :: s.queue
  | none => s.queue

/-- Operation `_start_worker` (lines 228-236): if no worker thread is alive, clear the
stop event and start one at the top of `_worker_loop`. -/
def startWorker (s : QMState) : QMState :=
  if s.pc ≠ .idle then s
  else { s with stop_event := false, pc := .top }

/-- Operation `add_item` (lines 63-111): build the item, append it to the queue, start
the worker if none is alive (the alive check of line 108 is subsumed by the
identical guard inside `_start_worker`); returns the fresh id. -/
def add_item (s : QMState) (url title path mode : String)
    (video_id : Option String) : Nat × QMState :=
  let item : QueueItem :=
    { id := s.next_id, url := url, title := title, path := path, mode := mode,
      video_id := video_id }
  (s.next_id,
   startWorker { s with queue := s.queue ++ [item], next_id := s.next_id + 1,
                        add_log := s.add_log ++ [s.next_id] })

/-- Operation `pause` (lines 144-150): set the paused flag and mark the current item
paused. -/
def pause (s : QMState) : QMState :=
  match s.current_item with
  | some it => { s with paused := true, current_item := some { it with status := .paused } }
  | none => { s with paused := true }

/-- Operation `resume` (lines 152-161): clear the paused flag and the stop event, then
restart the worker if it is not alive. -/
def resume (s : QMState) : QMState :=
  startWorker { s with paused := false, stop_event := false }

/-- Model of `list.remove` driven by the id scan of `remove_item`: drop the first
element whose id matches. -/
def removeFirstById : List QueueItem → Nat → List QueueItem
  | [], _ => []
  | it :: rest, i => if it.id == i then rest else it :: removeFirstById rest i

/-- Operation `remove_item` (lines 184-209): remove the first queue entry with the id,
or cancel the current item and set the stop event; `false` if not found. -/
def remove_item (s : QMState) (item_id : Nat) : Bool × QMState :=
  if s.queue.any (fun it => it.id == item_id) then
    (true, { s with queue := removeFirstById s.queue item_id })
  else
    match s.current_item with
    | some c =>
      if c.id == item_id then
        (true, { s with current_item := some { c with status := .cancelled },
                        stop_event := true })
      else (false, s)
    | none => (false, s)

/-- Operation `clear_completed` (lines 211-226): rebuild the queue without completed
items (lines 220-223), then count the completed items **in the already
filtered queue** (line 224) and return that count. -/
def clear_completed (s : QMState) : Nat × QMState :=
  let q := s.queue.filter (fun it => !(it.status == DownloadStatus.completed))
  let removed := (q.filter (fun it => it.status == DownloadStatus.completed)).length
  (removed, { s with queue := q })

/-- The dead continuation of `retry_item` after `get_item` returns
(lines 172-182): reset the found item and move it to the tail.  The in-place
field writes on the found object are visible wherever it is referenced. -/
def retry_body (s : QMState) (found : Option QueueItem) (item_id : Nat) : QMState :=
  match found with
  | none => s
  | some it =>
    let it2 := { it with status := DownloadStatus.queued, progress := 0,
                         error_message := none }
    let q := if s.queue.any (fun x => x.id == item_id)
             then removeFirstById s.queue item_id
             else s.queue
    let cur := match s.current_item with
               | some c => if c.id == item_id then some it2 else some c
               | none => none
    { s with queue := q ++ [it2], current_item := cur }

/-- Operation `retry_item` (lines 163-182): acquires `self._lock` (line 170), then calls
`self.get_item` (line 171) — which tries to acquire the same non-reentrant
lock and therefore blocks.  `none` models a call that never returns. -/
def retry_item (lockHeld : Bool) (s : QMState) (item_id : Nat) : Option QMState :=
  match withLock lockHeld with
  | none => none
  | some _ =>
    match get_item true s item_id with
    | none => none
    | some found => some (retry_body s found item_id)

/-- Whether the done event of the in-flight download for `i` has been set
(`download_complete.is_set()`, line 322). -/
def firedOf (s : QMState) (i : Nat) : Bool :=
  s.inflight.any (fun d => d.id == i && d.fired)

/-- Whether a download for `i` is in flight with its completion wrapper not
yet run (the executor calls each completion callback exactly once). -/
def inflightUnfired (s : QMState) (i : Nat) : Bool :=
  s.inflight.any (fun d => d.id == i && !d.fired)

/-- One atomic step of the worker thread (`_worker_loop`, lines 238-266, and
`_process_item`, lines 268-329). -/
def workerStep (s : QMState) : QMState :=
  match s.pc with
  | .idle => s
  | .top =>
    -- lines 241-242: stop check
    if s.stop_event then { s with pc := .idle }
    -- lines 245-247: paused check (sleep one unit and re-check)
    else if s.paused then s
    else
      -- lines 250-254: pop the head under lock
      match s.queue with
      | [] => { s with pc := .idle }
      | it :: rest =>
        { s with queue := rest, current_item := some it, pc := .popped }
  | .popped =>
    -- lines 256-257: skip items already cancelled (current_item is left set)
    match s.current_item with
    | some it =>
      if it.status = .cancelled then { s with pc := .top }
      else { s with pc := .procStart }
    | none => { s with pc := .top }
  | .procStart =>
    -- lines 275-277: without an injected download manager, return at once
    if !s.dm then { s with pc := .clearCur }
    else
      match s.current_item with
      | some it =>
        -- line 279 and lines 312-319: mark downloading, spawn the executor
        { s with current_item := some { it with status := .downloading },
                 inflight := s.inflight ++ [⟨it.id, false⟩],
                 exec_log := s.exec_log ++ [it.id],
                 pc := .waiting }
      | none => { s with pc := .clearCur }
  | .waiting =>
    -- lines 322-329: poll the done event, the stop event, the paused flag
    match s.current_item with
    | some it =>
      if firedOf s it.id then { s with pc := .clearCur }
      else if s.stop_event then
        { s with current_item := some { it with status := .cancelled }, pc := .clearCur }
      else if s.paused then
        { s with current_item := some { it with status := .paused }, pc := .clearCur }
      else s
    | none => { s with pc := .clearCur }
  | .clearCur =>
    -- lines 263-264: clear the current reference, back to the top
    { s with current_item := none, pc := .top }

/-- Mark the done event of download `i` as set. -/
def markFired (l : List InFlight) (i : Nat) : List InFlight :=
  l.map (fun d : InFlight => if d.id == i then { d with fired := true } else d)

/-- The executor invokes the progress wrapper (lines 285-289) of an in-flight
download: records the call, and the write to `item.progress` is visible in
the store iff the captured object is still the current item. -/
def fire_progress (s : QMState) (i : Nat) (percent : Rat) : QMState :=
  if inflightUnfired s i then
    match s.current_item with
    | some it =>
      if it.id == i then
        { s with progress_calls := s.progress_calls ++ [i],
                 current_item := some { it with progress := percent } }
      else { s with progress_calls := s.progress_calls ++ [i] }
    | none => { s with progress_calls := s.progress_calls ++ [i] }
  else s

/-- The executor invokes the completion wrapper (lines 291-309) of an
in-flight download exactly once: sets the done event, records the call, and
the writes to the captured item are visible in the store iff it is still the
current item. -/
def fire_complete (s : QMState) (i : Nat) (success : Bool) (msg : String)
    (fp : Option String) : QMState :=
  if inflightUnfired s i then
    match s.current_item with
    | some it =>
      if it.id == i then
        if success then
          { s with inflight := markFired s.inflight i,
                   complete_calls := s.complete_calls ++ [i],
                   current_item := some
                     { it with status := .completed, progress := 100,
                               file_path := fp } }
        else
          { s with inflight := markFired s.inflight i,
                   complete_calls := s.complete_calls ++ [i],
                   current_item := some
                     { it with status := .error, error_message := some msg,
                               progress := 0 } }
      else { s with inflight := markFired s.inflight i,
                    complete_calls := s.complete_calls ++ [i] }
    | none => { s with inflight := markFired s.inflight i,
                       complete_calls := s.complete_calls ++ [i] }
  else s

/-- An atomic action of the whole system: a facade call from a caller thread,
one worker micro-step, or the executor firing a wrapper callback. -/
inductive Act where
  | addJob (url title path mode : String) (video_id : Option String)
  | pauseQ
  | resumeQ
  | removeJob (i : Nat)
  | clearDone
  | worker
  | progressCb (i : Nat) (percent : Rat)
  | completeCb (i : Nat) (success : Bool) (msg : String) (fp : Option String)

/-- Effect of one action on the state. -/
def applyAct (s : QMState) : Act → QMState
  | .addJob u t p m v => (add_item s u t p m v).2
  | .pauseQ => pause s
  | .resumeQ => resume s
  | .removeJob i => (remove_item s i).2
  | .clearDone => (clear_completed s).2
  | .worker => workerStep s
  | .progressCb i pct => fire_progress s i pct
  | .completeCb i ok m fp => fire_complete s i ok m fp

/-- States reachable from `init` by interleaving the allowed actions. -/
inductive Reachable (allowed : Act → Prop) (init : QMState) : QMState → Prop
  | refl : Reachable allowed init init
  | step {s : QMState} (a : Act) :
      Reachable allowed init s → allowed a → Reachable allowed init (applyAct s a)

/-- The jobs visible in the store: the current item (if any) and the pending
queue — what `get_all_items` returns. -/
def storeItems (s : QMState) : List QueueItem :=
  get_all_items s

/-- Number of store jobs whose status is `downloading`. -/
def countDownloading (s : QMState) : Nat :=
  (storeItems s).countP (fun it => it.status == DownloadStatus.downloading)

/-- A completed job sitting in the pending queue. -/
def doneJob : QueueItem :=
  { id := 0, url := "u0", title := "t0", path := "/d", mode := "mp4",
    status := .completed, progress := 100, file_path := some "/d/t0.mp4" }

/-- A still-queued job behind it. -/
def waitingJob : QueueItem :=
  { id := 1, url := "u1", title := "t1", path := "/d", mode := "mp3" }

/-- A store holding one completed and one queued pending job. -/
def stateWithCompleted : QMState :=
  { initState true with queue := [doneJob, waitingJob], next_id := 2 }

/-- Scenario A (spec §8): one job added to a fresh, injected manager. -/
def scA0 : QMState := (add_item (initState true) "u1" "t1" "/tmp" "mp4" none).2

/-- Then the worker pops it and invokes the executor (three micro-steps). -/
def scA1 : QMState := workerStep (workerStep (workerStep scA0))

/-- Then the executor immediately reports success with a file path. -/
def scA2 : QMState := fire_complete scA1 0 true "ok" (some "/tmp/u1.mp4")

/-- Then the worker observes the done event, clears the current reference and
finds the queue empty (three more micro-steps). -/
def scA3 : QMState := workerStep (workerStep (workerStep scA2))

/-- Pause scenario: one job downloading, then `pause()` is called. -/
def scP1 : QMState :=
  workerStep (workerStep (workerStep
    ((add_item (initState true) "u1" "t1" "/d" "mp4" none).2)))

/-- Then the pause marks the current job paused. -/
def scP2 : QMState := pause scP1

/-- Then the worker's wait loop observes the paused flag (line 326-328) and
`_worker_loop` clears the current reference (line 264). -/
def scP3 : QMState := workerStep (workerStep scP2)

/-- The executor reports success but supplies no file path (exactly what the
repository's `DownloadManager` does: its `on_complete(success, message)`
never passes a file path, so `file_path` defaults to `None` at line 291). -/
def scC5 : QMState := fire_complete scA1 0 true "ok" none

/-- Whether some executor invocation (fired or not) exists for id `i`. -/
def inflightHas (s : QMState) (i : Nat) : Bool :=
  s.inflight.any (fun d => d.id == i)

/-- The ids of a list of queue items. -/
def idsOf (l : List QueueItem) : List Nat := l.map QueueItem.id

/-- Helper for `midIds`: at `popped`/`procStart` the (optional) current id,
else nothing. -/
def midIdsAux (pc : WorkerPC) (oid : Option Nat) : List Nat :=
  match pc with
  | .popped => oid.toList
  | .procStart => oid.toList
  | _ => []

/-- The id of a job that has been popped from the pending queue but whose
executor invocation has not happened yet (worker between lines 253 and 313). -/
def midIds (s : QMState) : List Nat :=
  midIdsAux s.pc (s.current_item.map QueueItem.id)

/-- Every job sitting in the pending queue has status `queued`. -/
def queueAllQueued (s : QMState) : Prop :=
  ∀ it ∈ s.queue, it.status = DownloadStatus.queued

/-- Field sanity of one job: completed implies a non-empty resolved path,
error implies a non-empty message. -/
def itemOk (it : QueueItem) : Prop :=
  (it.status = DownloadStatus.completed →
     ∃ p, it.file_path = some p ∧ p ≠ "") ∧
  (it.status = DownloadStatus.error →
     ∃ m, it.error_message = some m ∧ m ≠ "")

/-- Field sanity of every job in the store. -/
def storeOk (s : QMState) : Prop :=
  (∀ it, s.current_item = some it → itemOk it) ∧ ∀ it ∈ s.queue, itemOk it

/-- An executor that supplies a non-empty file path on success and a
non-empty message on failure (what the spec's executor contract implies on
top of §4.3). -/
def goodExecutor : Act → Prop
  | .completeCb _ ok m fp =>
      (ok = true → ∃ p, fp = some p ∧ p ≠ "") ∧ (ok = false → m ≠ "")
  | _ => True

/-- The FIFO scenario of the claim: `add` calls, worker execution and
executor callbacks, but no pause/resume/remove/clear. -/
def fifoActs : Act → Prop
  | .pauseQ => False
  | .resumeQ => False
  | .removeJob _ => False
  | .clearDone => False
  | _ => True

/-- The ghost bookkeeping that makes FIFO execution provable: the executor
invocation log, followed by the id of a popped-but-not-yet-executing current
job, followed by the pending queue, is exactly the sequence of accepted
jobs; pending jobs are queued, fresh, distinct and not in flight. -/
structure FifoInv (s : QMState) : Prop where
  dm_true : s.dm = true
  not_paused : s.paused = false
  not_stopped : s.stop_event = false
  log_eq : s.exec_log ++ (midIds s ++ idsOf s.queue) = s.add_log
  queue_queued : ∀ it ∈ s.queue, it.status = DownloadStatus.queued
  queue_fresh : ∀ it ∈ s.queue, it.id < s.next_id
  cur_fresh : ∀ it, s.current_item = some it → it.id < s.next_id
  inflight_fresh : ∀ d ∈ s.inflight, d.id < s.next_id
  queue_nodup : (idsOf s.queue).Nodup
  queue_not_inflight : ∀ it ∈ s.queue, inflightHas s it.id = false
  mid_ok : ∀ it, (s.pc = WorkerPC.popped ∨ s.pc = WorkerPC.procStart) →
      s.current_item = some it →
      it.status = DownloadStatus.queued ∧ inflightHas s it.id = false ∧
      it.id ∉ idsOf s.queue

/-! Section: Per-field behaviour of the operations (helper lemmas) -/

theorem workerStep_stop_event (s : QMState) :
    (workerStep s).stop_event = s.stop_event := by
  unfold workerStep
  cases s.pc <;> (repeat' split) <;> rfl

theorem fire_progress_stop_event (s : QMState) (i : Nat) (p : Rat) :
    (fire_progress s i p).stop_event = s.stop_event := by
  unfold fire_progress
  repeat' split
  all_goals rfl

theorem fire_complete_stop_event (s : QMState) (i : Nat) (ok : Bool)
    (m : String) (fp : Option String) :
    (fire_complete s i ok m fp).stop_event = s.stop_event := by
  unfold fire_complete
  repeat' split
  all_goals rfl

/-- Claim C1 (code bug). `clear_completed` on a queue holding one completed job and one
queued job does remove exactly the completed job and keeps the queued one,
but it returns 0 instead of the number of removed jobs (1): the count of
line 224 is computed on the queue that was already filtered in lines
220-223, so it is always zero.  This contradicts the function's own
docstring ("Returns: Número de itens removidos") and the spec. -/
theorem clear_completed_wrong_count :
    clear_completed stateWithCompleted =
      (0, { stateWithCompleted with queue := [waitingJob] }) ∧
    stateWithCompleted.queue.length -
      (clear_completed stateWithCompleted).2.queue.length = 1 := by
  constructor
  · rfl
  · rfl

/-! Section: C2: `retry_item` deadlocks on its own non-reentrant lock -/

/-- Claim C2 (code bug). `retry_item` never returns, for every state and every item id:
it acquires `self._lock` (line 170) and then calls `self.get_item`
(line 171), which tries to acquire the same non-reentrant
`threading.Lock` and blocks forever.  In particular a job with status
`error` never reaches status `queued` through `retry_item`. -/
theorem retry_item_deadlocks (s : QMState) (item_id : Nat) :
    retry_item false s item_id = none := rfl

/-! Section: C8: `remove_item` on an unknown id returns false and changes nothing -/

/-- Claim C8. For every id that is neither in the pending queue nor the id of
the current item, `remove_item` returns `false` and the entire state —
queue, current item, paused flag, stop event, and every job's fields — is
returned unchanged. -/
theorem remove_item_not_found (s : QMState) (item_id : Nat)
    (hq : ∀ it ∈ s.queue, it.id ≠ item_id)
    (hc : ∀ it, s.current_item = some it → it.id ≠ item_id) :
    remove_item s item_id = (false, s) := by
  unfold remove_item
  have hany : s.queue.any (fun it => it.id == item_id) = false := by
    rw [List.any_eq_false]
    intro it hmem
    simpa using hq it hmem
  rw [hany]
  simp only [Bool.false_eq_true, if_false]
  cases hcur : s.current_item with
  | none => rfl
  | some c => simp [hc c hcur]

/-- Witness for C8 at a concrete store: a one-job queue, id 7 unknown. -/
theorem remove_item_not_found_witness :
    remove_item { initState true with queue := [waitingJob] } 7 =
      (false, { initState true with queue := [waitingJob] }) :=
  remove_item_not_found _ 7
    (by intro it hmem; simp [initState, waitingJob] at hmem; simp [hmem, waitingJob])
    (by intro it h; simp [initState] at h)

/-! Section: C10: removing the current job stops the worker loop entirely -/

/-- Claim C10. (i) `remove_item` called with the id of the current job (an id
not in the pending queue) returns `true`, marks that job cancelled and sets
the stop event (lines 203-207); (ii) a worker at the top of its loop with
the stop event set terminates without popping anything (lines 241-242);
(iii) a dead worker does nothing; (iv) no action clears the stop event
except `resume` or an `add_item` that finds the worker dead and restarts
it — so pending jobs are not processed further until such a call. -/
theorem remove_current_stops_worker :
    (∀ s c, s.current_item = some c → (∀ it ∈ s.queue, it.id ≠ c.id) →
        remove_item s c.id =
          (true, { s with current_item := some { c with status := .cancelled },
                          stop_event := true })) ∧
    (∀ s, s.stop_event = true → s.pc = .top →
        workerStep s = { s with pc := .idle }) ∧
    (∀ s, s.pc = .idle → workerStep s = s) ∧
    (∀ s a, s.stop_event = true → (applyAct s a).stop_event = false →
        a = .resumeQ ∨ ∃ u t p m v, a = .addJob u t p m v ∧ s.pc = .idle) := by
  refine ⟨?_, ?_, ?_, ?_⟩
  · intro s c hcur hq
    unfold remove_item
    have hany : s.queue.any (fun it => it.id == c.id) = false := by
      rw [List.any_eq_false]
      intro it hmem
      simpa using hq it hmem
    rw [hany]
    simp [hcur]
  · intro s hstop hpc
    unfold workerStep
    rw [hpc, hstop]
    rfl
  · intro s hpc
    unfold workerStep
    rw [hpc]
  · intro s a hstop hafter
    cases a with
    | addJob u t p m v =>
      right
      refine ⟨u, t, p, m, v, rfl, ?_⟩
      by_contra hidle
      have hkeep : (applyAct s (.addJob u t p m v)).stop_event = true := by
        simp only [applyAct, add_item, startWorker]
        simp [hidle, hstop]
      rw [hafter] at hkeep
      exact Bool.false_ne_true hkeep
    | pauseQ =>
      exfalso
      have hkeep : (applyAct s .pauseQ).stop_event = true := by
        show (pause s).stop_event = true
        unfold pause
        cases s.current_item <;> simp [hstop]
      rw [hafter] at hkeep
      exact Bool.false_ne_true hkeep
    | resumeQ => exact Or.inl rfl
    | removeJob i =>
      exfalso
      have hkeep : (applyAct s (.removeJob i)).stop_event = true := by
        show (remove_item s i).2.stop_event = true
        unfold remove_item
        repeat' split
        all_goals simp [hstop]
      rw [hafter] at hkeep
      exact Bool.false_ne_true hkeep
    | clearDone =>
      exfalso
      have hkeep : (applyAct s .clearDone).stop_event = true := by
        show (clear_completed s).2.stop_event = true
        unfold clear_completed
        simp [hstop]
      rw [hafter] at hkeep
      exact Bool.false_ne_true hkeep
    | worker =>
      exfalso
      have hkeep := workerStep_stop_event s
      rw [show applyAct s .worker = workerStep s from rfl, hkeep, hstop] at hafter
      exact Bool.noConfusion hafter
    | progressCb i pct =>
      exfalso
      have hkeep := fire_progress_stop_event s i pct
      rw [show applyAct s (.progressCb i pct) = fire_progress s i pct from rfl,
        hkeep, hstop] at hafter
      exact Bool.noConfusion hafter
    | completeCb i ok m fp =>
      exfalso
      have hkeep := fire_complete_stop_event s i ok m fp
      rw [show applyAct s (.completeCb i ok m fp) = fire_complete s i ok m fp from rfl,
        hkeep, hstop] at hafter
      exact Bool.noConfusion hafter

/-- Witness for C10 at a concrete store: removing the current job of a
stopped-free running manager. -/
theorem remove_current_stops_worker_witness :
    remove_item { initState true with current_item := some doneJob, pc := .waiting }
        doneJob.id =
      (true, { initState true with
                 current_item := some { doneJob with status := .cancelled },
                 pc := .waiting, stop_event := true }) :=
  remove_current_stops_worker.1
    { initState true with current_item := some doneJob, pc := .waiting }
    doneJob (by rfl) (by intro it hmem; simp [initState] at hmem)

/-! Section: C3: a completed job does not stay inspectable -/

/-- Claim C3, counterexample. In scenario A the completion wrapper did run
(`complete_calls = [0]`), yet once the worker loop proceeds past the
completed job, `get_item` no longer finds it: the job was popped from the
pending queue at line 253 and the current reference is cleared at line 264,
so a completed job is dropped from the store instead of remaining
inspectable. -/
theorem completed_job_vanishes :
    scA3.complete_calls = [0] ∧ get_item_body scA3 0 = none := ⟨rfl, rfl⟩

/-- Claim C3, amended. Immediately after the completion callback fires — while
the job is still the current reference — `get_item` returns it with status
completed, progress 100 and the resolved file path; but once the Worker
Loop clears the current reference the job is no longer in the store and
`get_item` returns not-found. -/
theorem completed_job_transiently_inspectable :
    (get_item_body scA2 0).map QueueItem.status = some .completed ∧
    (get_item_body scA2 0).map QueueItem.progress = some 100 ∧
    (get_item_body scA2 0).map QueueItem.file_path = some (some "/tmp/u1.mp4") ∧
    get_item_body scA3 0 = none ∧ scA3.pc = .idle :=
  ⟨rfl, rfl, rfl, rfl, rfl⟩

/-- Claim C4, counterexample. Calling `pause()` while job 0 is downloading marks it
paused, but two worker micro-steps later — with the manager still paused,
`resume` never called — the job is gone from the store: `get_item` finds
nothing and `get_all_items` is empty.  The previously-downloading job IS
silently dropped. -/
theorem paused_job_dropped :
    scP1.current_item.map QueueItem.status = some .downloading ∧
    scP2.paused = true ∧
    scP2.current_item.map QueueItem.status = some .paused ∧
    scP3.paused = true ∧
    get_item_body scP3 0 = none ∧
    get_all_items scP3 = [] :=
  ⟨rfl, rfl, rfl, rfl, rfl, rfl⟩

/-- Claim C4, amended. After `pause()`: a worker at the top of its loop makes
no move while the paused flag is set (no pop, no new download — lines
245-247); the job that was downloading at pause time is marked paused, but
the worker's wait loop then returns and the current reference is cleared,
so that job is removed from the store rather than remaining reachable. -/
theorem pause_amended :
    (∀ s : QMState, s.pc = .top → s.paused = true → s.stop_event = false →
        workerStep s = s) ∧
    scP2.current_item.map QueueItem.status = some .paused ∧
    get_item_body scP3 0 = none := by
  refine ⟨?_, rfl, rfl⟩
  intro s hpc hpaused hstop
  unfold workerStep
  rw [hpc, hstop, hpaused]
  rfl

/-- Witness for the universally quantified part of `pause_amended`: a paused
manager with a worker at the top of its loop and a queued job pending. -/
theorem pause_amended_witness :
    workerStep { initState true with
                   pc := .top, paused := true, queue := [waitingJob] } =
      { initState true with
          pc := .top, paused := true, queue := [waitingJob] } :=
  pause_amended.1 _ rfl rfl rfl

/-- Claim C5, counterexample. After a successful completion callback that
carries no file path, the store holds a job with status completed and
`file_path = none`: the claimed invariant fails for completion callbacks
that supply no path (and symmetrically, an empty error message is stored
verbatim for failures). -/
theorem completed_job_without_path :
    scC5.current_item.map QueueItem.status = some .completed ∧
    scC5.current_item.map QueueItem.file_path = some none :=
  ⟨rfl, rfl⟩

/-! Section: More per-field helper lemmas -/

theorem startWorker_queue (s : QMState) : (startWorker s).queue = s.queue := by
  unfold startWorker; split <;> rfl

theorem startWorker_current_item (s : QMState) :
    (startWorker s).current_item = s.current_item := by
  unfold startWorker; split <;> rfl

theorem startWorker_paused (s : QMState) : (startWorker s).paused = s.paused := by
  unfold startWorker; split <;> rfl

theorem startWorker_dm (s : QMState) : (startWorker s).dm = s.dm := by
  unfold startWorker; split <;> rfl

theorem startWorker_next_id (s : QMState) : (startWorker s).next_id = s.next_id := by
  unfold startWorker; split <;> rfl

theorem startWorker_inflight (s : QMState) : (startWorker s).inflight = s.inflight := by
  unfold startWorker; split <;> rfl

theorem startWorker_add_log (s : QMState) : (startWorker s).add_log = s.add_log := by
  unfold startWorker; split <;> rfl

theorem startWorker_exec_log (s : QMState) : (startWorker s).exec_log = s.exec_log := by
  unfold startWorker; split <;> rfl

theorem startWorker_progress_calls (s : QMState) :
    (startWorker s).progress_calls = s.progress_calls := by
  unfold startWorker; split <;> rfl

theorem startWorker_complete_calls (s : QMState) :
    (startWorker s).complete_calls = s.complete_calls := by
  unfold startWorker; split <;> rfl

theorem pause_queue (s : QMState) : (pause s).queue = s.queue := by
  unfold pause; split <;> rfl

theorem pause_dm (s : QMState) : (pause s).dm = s.dm := by
  unfold pause; split <;> rfl

theorem pause_next_id (s : QMState) : (pause s).next_id = s.next_id := by
  unfold pause; split <;> rfl

theorem pause_inflight (s : QMState) : (pause s).inflight = s.inflight := by
  unfold pause; split <;> rfl

theorem pause_add_log (s : QMState) : (pause s).add_log = s.add_log := by
  unfold pause; split <;> rfl

theorem pause_exec_log (s : QMState) : (pause s).exec_log = s.exec_log := by
  unfold pause; split <;> rfl

theorem pause_progress_calls (s : QMState) :
    (pause s).progress_calls = s.progress_calls := by
  unfold pause; split <;> rfl

theorem pause_complete_calls (s : QMState) :
    (pause s).complete_calls = s.complete_calls := by
  unfold pause; split <;> rfl

theorem remove_item_dm (s : QMState) (i : Nat) :
    ((remove_item s i).2).dm = s.dm := by
  unfold remove_item; repeat' split
  all_goals rfl

theorem remove_item_next_id (s : QMState) (i : Nat) :
    ((remove_item s i).2).next_id = s.next_id := by
  unfold remove_item; repeat' split
  all_goals rfl

theorem remove_item_inflight (s : QMState) (i : Nat) :
    ((remove_item s i).2).inflight = s.inflight := by
  unfold remove_item; repeat' split
  all_goals rfl

theorem remove_item_add_log (s : QMState) (i : Nat) :
    ((remove_item s i).2).add_log = s.add_log := by
  unfold remove_item; repeat' split
  all_goals rfl

theorem remove_item_exec_log (s : QMState) (i : Nat) :
    ((remove_item s i).2).exec_log = s.exec_log := by
  unfold remove_item; repeat' split
  all_goals rfl

theorem remove_item_progress_calls (s : QMState) (i : Nat) :
    ((remove_item s i).2).progress_calls = s.progress_calls := by
  unfold remove_item; repeat' split
  all_goals rfl

theorem remove_item_complete_calls (s : QMState) (i : Nat) :
    ((remove_item s i).2).complete_calls = s.complete_calls := by
  unfold remove_item; repeat' split
  all_goals rfl

theorem workerStep_paused (s : QMState) : (workerStep s).paused = s.paused := by
  unfold workerStep
  cases s.pc <;> (repeat' split) <;> rfl

theorem workerStep_dm (s : QMState) : (workerStep s).dm = s.dm := by
  unfold workerStep
  cases s.pc <;> (repeat' split) <;> rfl

theorem workerStep_next_id (s : QMState) : (workerStep s).next_id = s.next_id := by
  unfold workerStep
  cases s.pc <;> (repeat' split) <;> rfl

theorem workerStep_add_log (s : QMState) : (workerStep s).add_log = s.add_log := by
  unfold workerStep
  cases s.pc <;> (repeat' split) <;> rfl

theorem workerStep_progress_calls (s : QMState) :
    (workerStep s).progress_calls = s.progress_calls := by
  unfold workerStep
  cases s.pc <;> (repeat' split) <;> rfl

theorem workerStep_complete_calls (s : QMState) :
    (workerStep s).complete_calls = s.complete_calls := by
  unfold workerStep
  cases s.pc <;> (repeat' split) <;> rfl

theorem fire_progress_queue (s : QMState) (i : Nat) (p : Rat) :
    (fire_progress s i p).queue = s.queue := by
  unfold fire_progress; repeat' split
  all_goals rfl

theorem fire_progress_paused (s : QMState) (i : Nat) (p : Rat) :
    (fire_progress s i p).paused = s.paused := by
  unfold fire_progress; repeat' split
  all_goals rfl

theorem fire_progress_dm (s : QMState) (i : Nat) (p : Rat) :
    (fire_progress s i p).dm = s.dm := by
  unfold fire_progress; repeat' split
  all_goals rfl

theorem fire_progress_next_id (s : QMState) (i : Nat) (p : Rat) :
    (fire_progress s i p).next_id = s.next_id := by
  unfold fire_progress; repeat' split
  all_goals rfl

theorem fire_progress_inflight (s : QMState) (i : Nat) (p : Rat) :
    (fire_progress s i p).inflight = s.inflight := by
  unfold fire_progress; repeat' split
  all_goals rfl

theorem fire_progress_add_log (s : QMState) (i : Nat) (p : Rat) :
    (fire_progress s i p).add_log = s.add_log := by
  unfold fire_progress; repeat' split
  all_goals rfl

theorem fire_progress_exec_log (s : QMState) (i : Nat) (p : Rat) :
    (fire_progress s i p).exec_log = s.exec_log := by
  unfold fire_progress; repeat' split
  all_goals rfl

theorem fire_progress_pc (s : QMState) (i : Nat) (p : Rat) :
    (fire_progress s i p).pc = s.pc := by
  unfold fire_progress; repeat' split
  all_goals rfl

theorem fire_complete_queue (s : QMState) (i : Nat) (ok : Bool) (m : String)
    (fp : Option String) : (fire_complete s i ok m fp).queue = s.queue := by
  unfold fire_complete; repeat' split
  all_goals rfl

theorem fire_complete_paused (s : QMState) (i : Nat) (ok : Bool) (m : String)
    (fp : Option String) : (fire_complete s i ok m fp).paused = s.paused := by
  unfold fire_complete; repeat' split
  all_goals rfl

theorem fire_complete_dm (s : QMState) (i : Nat) (ok : Bool) (m : String)
    (fp : Option String) : (fire_complete s i ok m fp).dm = s.dm := by
  unfold fire_complete; repeat' split
  all_goals rfl

theorem fire_complete_next_id (s : QMState) (i : Nat) (ok : Bool) (m : String)
    (fp : Option String) : (fire_complete s i ok m fp).next_id = s.next_id := by
  unfold fire_complete; repeat' split
  all_goals rfl

theorem fire_complete_add_log (s : QMState) (i : Nat) (ok : Bool) (m : String)
    (fp : Option String) : (fire_complete s i ok m fp).add_log = s.add_log := by
  unfold fire_complete; repeat' split
  all_goals rfl

theorem fire_complete_exec_log (s : QMState) (i : Nat) (ok : Bool) (m : String)
    (fp : Option String) : (fire_complete s i ok m fp).exec_log = s.exec_log := by
  unfold fire_complete; repeat' split
  all_goals rfl

theorem fire_complete_pc (s : QMState) (i : Nat) (ok : Bool) (m : String)
    (fp : Option String) : (fire_complete s i ok m fp).pc = s.pc := by
  unfold fire_complete; repeat' split
  all_goals rfl

theorem clear_completed_dm (s : QMState) : ((clear_completed s).2).dm = s.dm := rfl

theorem add_item_dm (s : QMState) (u t p m : String) (v : Option String) :
    ((add_item s u t p m v).2).dm = s.dm :=
  startWorker_dm _

theorem resume_dm (s : QMState) : (resume s).dm = s.dm :=
  startWorker_dm _

/-- Field `dm` (whether the download manager was injected) is constant under every
action. -/
theorem applyAct_dm (s : QMState) (a : Act) : (applyAct s a).dm = s.dm := by
  cases a with
  | addJob u t p m v => exact add_item_dm s u t p m v
  | pauseQ => exact pause_dm s
  | resumeQ => exact resume_dm s
  | removeJob i => exact remove_item_dm s i
  | clearDone => exact clear_completed_dm s
  | worker => exact workerStep_dm s
  | progressCb i pct => exact fire_progress_dm s i pct
  | completeCb i ok m fp => exact fire_complete_dm s i ok m fp

/-! Section: List-level helper lemmas -/

theorem mem_removeFirstById {l : List QueueItem} {i : Nat} {x : QueueItem}
    (h : x ∈ removeFirstById l i) : x ∈ l := by
  induction l with
  | nil => simp [removeFirstById] at h
  | cons a rest ih =>
    unfold removeFirstById at h
    by_cases hid : (a.id == i) = true
    · rw [if_pos hid] at h
      exact List.mem_cons_of_mem _ h
    · rw [if_neg hid] at h
      rcases List.mem_cons.mp h with h1 | h2
      · exact h1 ▸ List.mem_cons_self _ _
      · exact List.mem_cons_of_mem _ (ih h2)

theorem markFired_any_id (l : List InFlight) (i j : Nat) :
    (markFired l i).any (fun d => d.id == j) = l.any (fun d => d.id == j) := by
  induction l with
  | nil => rfl
  | cons d rest ih =>
    unfold markFired at ih ⊢
    simp only [List.map_cons, List.any_cons]
    rw [ih]
    congr 1
    split <;> rfl

theorem markFired_id_lt {l : List InFlight} {i n : Nat}
    (h : ∀ d ∈ l, d.id < n) : ∀ d ∈ markFired l i, d.id < n := by
  intro d hd
  unfold markFired at hd
  obtain ⟨d0, hd0, himg⟩ := List.mem_map.mp hd
  have hid : d.id = d0.id := by
    rw [← himg]
    split <;> rfl
  rw [hid]
  exact h d0 hd0

theorem inflightHas_of_unfired {s : QMState} {i : Nat}
    (h : inflightUnfired s i = true) : inflightHas s i = true := by
  unfold inflightUnfired at h
  unfold inflightHas
  rw [List.any_eq_true] at h ⊢
  obtain ⟨d, hd, hp⟩ := h
  refine ⟨d, hd, ?_⟩
  exact ((Bool.and_eq_true _ _).mp hp).1

/-! Section: C9: without an injected download manager, jobs are silently dropped -/

/-- Callback `fire_progress` is a no-op when nothing is in flight. -/
theorem fire_progress_no_inflight {s : QMState} (h : s.inflight = [])
    (i : Nat) (p : Rat) : fire_progress s i p = s := by
  have hu : inflightUnfired s i = false := by
    unfold inflightUnfired; rw [h]; rfl
  unfold fire_progress
  rw [hu]
  rfl

/-- Callback `fire_complete` is a no-op when nothing is in flight. -/
theorem fire_complete_no_inflight {s : QMState} (h : s.inflight = [])
    (i : Nat) (ok : Bool) (m : String) (fp : Option String) :
    fire_complete s i ok m fp = s := by
  have hu : inflightUnfired s i = false := by
    unfold inflightUnfired; rw [h]; rfl
  unfold fire_complete
  rw [hu]
  rfl

/-- With `dm = false`, a worker step never spawns a download or touches the
executor log (the early return of lines 275-277). -/
theorem workerStep_no_dm {s : QMState} (hdm : s.dm = false) :
    (workerStep s).inflight = s.inflight ∧
    (workerStep s).exec_log = s.exec_log := by
  unfold workerStep
  cases s.pc <;> (repeat' split) <;> first
    | exact ⟨rfl, rfl⟩
    | simp_all

/-- Claim C9. (i) In every state reachable, by any interleaving of operations,
worker steps and executor callbacks, from a fresh manager whose download
manager was never injected: the executor was never invoked (`exec_log` and
`inflight` empty) and no progress or completion wrapper ever ran.
(ii) A worker at the top of its loop facing a non-cancelled head job, with
no download manager injected, silently drops that job in four micro-steps:
the job is popped from the pending queue and the current reference is
cleared, the job's fields (including its `queued` status) never written. -/
theorem no_download_manager_drops_jobs :
    (∀ s, Reachable (fun _ => True) (initState false) s →
        s.dm = false ∧ s.inflight = [] ∧ s.exec_log = [] ∧
        s.progress_calls = [] ∧ s.complete_calls = []) ∧
    (∀ (s : QMState) (it : QueueItem) (rest : List QueueItem),
        s.dm = false → s.pc = .top → s.stop_event = false → s.paused = false →
        s.queue = it :: rest → it.status ≠ .cancelled →
        workerStep (workerStep (workerStep (workerStep s))) =
          { s with queue := rest, current_item := none, pc := .top }) := by
  constructor
  · intro s h
    induction h with
    | refl => exact ⟨rfl, rfl, rfl, rfl, rfl⟩
    | step a hr hall ih =>
      obtain ⟨hdm, hinf, hexe, hpro, hcom⟩ := ih
      refine ⟨(applyAct_dm _ _).trans hdm, ?_⟩
      cases a with
      | addJob u t p m v =>
        exact ⟨(startWorker_inflight _).trans hinf,
               (startWorker_exec_log _).trans hexe,
               (startWorker_progress_calls _).trans hpro,
               (startWorker_complete_calls _).trans hcom⟩
      | pauseQ =>
        exact ⟨(pause_inflight _).trans hinf, (pause_exec_log _).trans hexe,
               (pause_progress_calls _).trans hpro,
               (pause_complete_calls _).trans hcom⟩
      | resumeQ =>
        exact ⟨(startWorker_inflight _).trans hinf,
               (startWorker_exec_log _).trans hexe,
               (startWorker_progress_calls _).trans hpro,
               (startWorker_complete_calls _).trans hcom⟩
      | removeJob i =>
        exact ⟨(remove_item_inflight _ _).trans hinf,
               (remove_item_exec_log _ _).trans hexe,
               (remove_item_progress_calls _ _).trans hpro,
               (remove_item_complete_calls _ _).trans hcom⟩
      | clearDone => exact ⟨hinf, hexe, hpro, hcom⟩
      | worker =>
        obtain ⟨h1, h2⟩ := workerStep_no_dm hdm
        exact ⟨h1.trans hinf, h2.trans hexe,
               (workerStep_progress_calls _).trans hpro,
               (workerStep_complete_calls _).trans hcom⟩
      | progressCb i pct =>
        rw [show applyAct _ (Act.progressCb i pct) = fire_progress _ i pct from rfl,
          fire_progress_no_inflight hinf]
        exact ⟨hinf, hexe, hpro, hcom⟩
      | completeCb i ok m fp =>
        rw [show applyAct _ (Act.completeCb i ok m fp) = fire_complete _ i ok m fp from rfl,
          fire_complete_no_inflight hinf]
        exact ⟨hinf, hexe, hpro, hcom⟩
  · intro s it rest hdm hpc hstop hpause hq hcanc
    have e1 : workerStep s =
        { s with queue := rest, current_item := some it, pc := .popped } := by
      simp [workerStep, hpc, hstop, hpause, hq]
    have e2 : workerStep { s with queue := rest, current_item := some it, pc := .popped } =
        { s with queue := rest, current_item := some it, pc := .procStart } := by
      simp [workerStep, hcanc]
    have e3 : workerStep { s with queue := rest, current_item := some it, pc := .procStart } =
        { s with queue := rest, current_item := some it, pc := .clearCur } := by
      simp [workerStep, hdm]
    have e4 : workerStep { s with queue := rest, current_item := some it, pc := .clearCur } =
        { s with queue := rest, current_item := none, pc := .top } := by
      simp [workerStep]
    rw [e1, e2, e3, e4]

/-- Witness for C9: a fresh manager without download manager (part i at the
initial state), and the four-step drop on a concrete one-job queue (part ii). -/
theorem no_download_manager_drops_jobs_witness :
    ((initState false).exec_log = [] ∧ (initState false).complete_calls = []) ∧
    workerStep (workerStep (workerStep (workerStep
        { initState false with pc := .top, queue := [waitingJob] }))) =
      { initState false with pc := .top, queue := [], current_item := none } :=
  ⟨⟨(no_download_manager_drops_jobs.1 _ Reachable.refl).2.2.1,
    (no_download_manager_drops_jobs.1 _ Reachable.refl).2.2.2.2⟩,
   no_download_manager_drops_jobs.2
     { initState false with pc := .top, queue := [waitingJob] }
     waitingJob [] rfl rfl rfl rfl rfl (by intro h; cases h)⟩

theorem remove_item_queue_subset {s : QMState} {i : Nat} {x : QueueItem}
    (h : x ∈ ((remove_item s i).2).queue) : x ∈ s.queue := by
  unfold remove_item at h
  repeat' split at h
  all_goals first
    | exact h
    | exact mem_removeFirstById h

theorem workerStep_queue_subset {s : QMState} {x : QueueItem}
    (h : x ∈ (workerStep s).queue) : x ∈ s.queue := by
  unfold workerStep at h
  cases hpc : s.pc <;> rw [hpc] at h
  all_goals repeat' split at h
  all_goals first
    | exact h
    | simp_all

/-- Only `queued` jobs ever sit in the pending queue: `add_item` appends
fresh `queued` items, every other operation only removes from or preserves
the queue. -/
theorem queueAllQueued_step {s : QMState} (h : queueAllQueued s) (a : Act) :
    queueAllQueued (applyAct s a) := by
  cases a with
  | addJob u t p m v =>
    intro it hmem
    rw [show (applyAct s (Act.addJob u t p m v)).queue =
        s.queue ++ [{ id := s.next_id, url := u, title := t, path := p,
                      mode := m, video_id := v }] from startWorker_queue _] at hmem
    rcases List.mem_append.mp hmem with h1 | h2
    · exact h it h1
    · rw [List.mem_singleton.mp h2]
  | pauseQ =>
    intro it hmem
    rw [show (applyAct s Act.pauseQ).queue = s.queue from pause_queue _] at hmem
    exact h it hmem
  | resumeQ =>
    intro it hmem
    rw [show (applyAct s Act.resumeQ).queue = s.queue from startWorker_queue _] at hmem
    exact h it hmem
  | removeJob i =>
    intro it hmem
    exact h it (remove_item_queue_subset hmem)
  | clearDone =>
    intro it hmem
    have : it ∈ s.queue := List.mem_of_mem_filter hmem
    exact h it this
  | worker =>
    intro it hmem
    exact h it (workerStep_queue_subset hmem)
  | progressCb i pct =>
    intro it hmem
    rw [show (applyAct s (Act.progressCb i pct)).queue = s.queue from
      fire_progress_queue _ _ _] at hmem
    exact h it hmem
  | completeCb i ok m fp =>
    intro it hmem
    rw [show (applyAct s (Act.completeCb i ok m fp)).queue = s.queue from
      fire_complete_queue _ _ _ _ _] at hmem
    exact h it hmem

/-- Claim C7. In every reachable state — whatever interleaving of facade
calls, worker steps and executor callbacks led to it, with or without an
injected download manager — at most one job in the store has status
`downloading`: pending jobs are always `queued`, so only the single current
item can be `downloading`. -/
theorem at_most_one_downloading (dm : Bool) (s : QMState)
    (h : Reachable (fun _ => True) (initState dm) s) :
    countDownloading s ≤ 1 := by
  have hq : queueAllQueued s := by
    induction h with
    | refl => intro it hmem; cases hmem
    | step a hr hall ih => exact queueAllQueued_step ih a
  have hzero : s.queue.countP (fun it => it.status == DownloadStatus.downloading) = 0 := by
    rw [List.countP_eq_zero]
    intro a ha
    rw [hq a ha]
    decide
  unfold countDownloading storeItems get_all_items
  cases hc : s.current_item with
  | none =>
    rw [hzero]
    decide
  | some c =>
    rw [List.countP_cons, hzero]
    split <;> decide

theorem itemOk_of_status {it : QueueItem}
    (h1 : it.status ≠ DownloadStatus.completed)
    (h2 : it.status ≠ DownloadStatus.error) : itemOk it :=
  ⟨fun h => absurd h h1, fun h => absurd h h2⟩

theorem storeOk_worker {s : QMState} (h : storeOk s) : storeOk (workerStep s) := by
  obtain ⟨hcur, hque⟩ := h
  cases hpc : s.pc
  case idle =>
    simp only [workerStep, hpc]
    exact ⟨hcur, hque⟩
  case top =>
    simp only [workerStep, hpc]
    split
    · exact ⟨hcur, hque⟩
    · split
      · exact ⟨hcur, hque⟩
      · split
        · exact ⟨hcur, hque⟩
        · rename_i it rest heq
          refine ⟨?_, ?_⟩
          · intro x hx
            have hxit : it = x := by simpa using hx
            rw [← hxit]
            exact hque it (by rw [heq]; exact List.mem_cons_self it rest)
          · intro x hx
            exact hque x (by rw [heq]; exact List.mem_cons_of_mem it hx)
  case popped =>
    simp only [workerStep, hpc]
    split
    · split <;> exact ⟨hcur, hque⟩
    · exact ⟨hcur, hque⟩
  case procStart =>
    simp only [workerStep, hpc]
    split
    · exact ⟨hcur, hque⟩
    · split
      · rename_i hdm it heq
        refine ⟨?_, hque⟩
        intro x hx
        have hxit : ({ it with status := DownloadStatus.downloading } : QueueItem) = x := by
          simpa using hx
        rw [← hxit]
        exact itemOk_of_status (fun hh => by cases hh) (fun hh => by cases hh)
      · exact ⟨hcur, hque⟩
  case waiting =>
    simp only [workerStep, hpc]
    split
    · rename_i it heq
      split
      · exact ⟨hcur, hque⟩
      · split
        · refine ⟨?_, hque⟩
          intro x hx
          have hxit : ({ it with status := DownloadStatus.cancelled } : QueueItem) = x := by
            simpa using hx
          rw [← hxit]
          exact itemOk_of_status (fun hh => by cases hh) (fun hh => by cases hh)
        · split
          · refine ⟨?_, hque⟩
            intro x hx
            have hxit : ({ it with status := DownloadStatus.paused } : QueueItem) = x := by
              simpa using hx
            rw [← hxit]
            exact itemOk_of_status (fun hh => by cases hh) (fun hh => by cases hh)
          · exact ⟨hcur, hque⟩
    · exact ⟨hcur, hque⟩
  case clearCur =>
    simp only [workerStep, hpc]
    exact ⟨(fun x hx => by cases hx), hque⟩

/-- Every allowed action preserves field sanity of the store. -/
theorem storeOk_step {s : QMState} (h : storeOk s) {a : Act}
    (hgood : goodExecutor a) : storeOk (applyAct s a) := by
  obtain ⟨hcur, hque⟩ := h
  cases a with
  | addJob u t p m v =>
    refine ⟨?_, ?_⟩
    · intro x hx
      rw [show (applyAct s (Act.addJob u t p m v)).current_item = s.current_item from
        startWorker_current_item _] at hx
      exact hcur x hx
    · intro x hx
      rw [show (applyAct s (Act.addJob u t p m v)).queue =
          s.queue ++ [{ id := s.next_id, url := u, title := t, path := p,
                        mode := m, video_id := v }] from startWorker_queue _] at hx
      rcases List.mem_append.mp hx with h1 | h2
      · exact hque x h1
      · rw [List.mem_singleton.mp h2]
        exact itemOk_of_status (fun hh => by cases hh) (fun hh => by cases hh)
  | pauseQ =>
    show storeOk (pause s)
    unfold pause
    split
    · rename_i c heq
      refine ⟨?_, hque⟩
      intro x hx
      have hxc : ({ c with status := DownloadStatus.paused } : QueueItem) = x := by
        simpa using hx
      rw [← hxc]
      exact itemOk_of_status (fun hh => by cases hh) (fun hh => by cases hh)
    · rename_i heq
      refine ⟨?_, hque⟩
      intro x hx
      have hx2 : s.current_item = some x := by simpa using hx
      rw [heq] at hx2
      cases hx2
  | resumeQ =>
    refine ⟨?_, ?_⟩
    · intro x hx
      rw [show (applyAct s Act.resumeQ).current_item = s.current_item from
        startWorker_current_item _] at hx
      exact hcur x hx
    · intro x hx
      rw [show (applyAct s Act.resumeQ).queue = s.queue from startWorker_queue _] at hx
      exact hque x hx
  | removeJob i =>
    show storeOk (remove_item s i).2
    unfold remove_item
    by_cases hany : (s.queue.any fun it => it.id == i) = true
    · rw [if_pos hany]
      exact ⟨hcur, fun x hx => hque x (mem_removeFirstById hx)⟩
    · rw [if_neg hany]
      split
      · rename_i c heq
        split
        · refine ⟨?_, hque⟩
          intro x hx
          have hxc : ({ c with status := DownloadStatus.cancelled } : QueueItem) = x := by
            simpa using hx
          rw [← hxc]
          exact itemOk_of_status (fun hh => by cases hh) (fun hh => by cases hh)
        · exact ⟨hcur, hque⟩
      · exact ⟨hcur, hque⟩
  | clearDone =>
    exact ⟨hcur, fun x hx => hque x (List.mem_of_mem_filter hx)⟩
  | worker => exact storeOk_worker ⟨hcur, hque⟩
  | progressCb i pct =>
    show storeOk (fire_progress s i pct)
    unfold fire_progress
    by_cases hg : inflightUnfired s i = true
    · rw [if_pos hg]
      split
      · rename_i c heq
        split
        · refine ⟨?_, hque⟩
          intro x hx
          have hxc : ({ c with progress := pct } : QueueItem) = x := by simpa using hx
          rw [← hxc]
          exact hcur c heq
        · exact ⟨(fun x hx => hcur x (by simpa using hx)), hque⟩
      · rename_i heq
        refine ⟨?_, hque⟩
        intro x hx
        have hx2 : s.current_item = some x := by simpa using hx
        rw [heq] at hx2
        cases hx2
    · rw [if_neg hg]
      exact ⟨hcur, hque⟩
  | completeCb i ok m fp =>
    obtain ⟨hok, hbad⟩ := hgood
    show storeOk (fire_complete s i ok m fp)
    unfold fire_complete
    by_cases hg : inflightUnfired s i = true
    · rw [if_pos hg]
      split
      · rename_i c heq
        split
        · split
          · refine ⟨?_, hque⟩
            intro x hx
            have hxc : ({ c with status := DownloadStatus.completed,
                                 progress := 100, file_path := fp } : QueueItem) = x := by
              simpa using hx
            rw [← hxc]
            rename_i hsucc
            obtain ⟨pp, hpp, hppne⟩ := hok hsucc
            exact ⟨fun _ => ⟨pp, (by rw [hpp]), hppne⟩, (fun hh => by cases hh)⟩
          · refine ⟨?_, hque⟩
            intro x hx
            have hxc : ({ c with status := DownloadStatus.error,
                                 error_message := some m, progress := 0 } : QueueItem) = x := by
              simpa using hx
            rw [← hxc]
            rename_i hsucc
            have hfalse : ok = false := by
              revert hsucc; cases ok <;> simp
            exact ⟨(fun hh => by cases hh), fun _ => ⟨m, rfl, hbad hfalse⟩⟩
        · exact ⟨(fun x hx => hcur x (by simpa using hx)), hque⟩
      · rename_i heq
        refine ⟨?_, hque⟩
        intro x hx
        have hx2 : s.current_item = some x := by simpa using hx
        rw [heq] at hx2
        cases hx2
    · rw [if_neg hg]
      exact ⟨hcur, hque⟩

/-- Claim C5, amended. Provided every executor completion callback supplies a
non-empty file path on success and a non-empty message on failure, every
reachable state satisfies the claimed invariant: a completed job in the
store has a non-empty resolved path, an error job a non-empty message.
(Unconditionally the invariant is false — see the counterexample: the code
stores whatever the callback supplies, including `None`.) -/
theorem completed_error_fields_ok (dm : Bool) (s : QMState)
    (h : Reachable goodExecutor (initState dm) s) :
    ∀ it ∈ storeItems s,
      (it.status = DownloadStatus.completed → ∃ p, it.file_path = some p ∧ p ≠ "") ∧
      (it.status = DownloadStatus.error → ∃ m, it.error_message = some m ∧ m ≠ "") := by
  have hok : storeOk s := by
    induction h with
    | refl => exact ⟨(fun it hit => by cases hit), (fun it hit => by cases hit)⟩
    | step a hr hall ih => exact storeOk_step ih hall
  obtain ⟨hcur, hque⟩ := hok
  intro it hit
  unfold storeItems get_all_items at hit
  cases hc : s.current_item with
  | none =>
    rw [hc] at hit
    exact hque it hit
  | some c =>
    rw [hc] at hit
    rcases List.mem_cons.mp hit with h1 | h2
    · rw [h1]; exact hcur c hc
    · exact hque it h2

/-- Witness for C7: a state with one job actively downloading, reached by an
add and three worker steps, has downloading-count at most one. -/
theorem at_most_one_downloading_witness :
    countDownloading (applyAct (applyAct (applyAct (applyAct (initState true)
      (Act.addJob "u1" "t1" "/d" "mp4" none)) Act.worker) Act.worker) Act.worker) ≤ 1 :=
  at_most_one_downloading true _
    (Reachable.step _ (Reachable.step _ (Reachable.step _ (Reachable.step _
      Reachable.refl trivial) trivial) trivial) trivial)

/-- Witness for C5 (amended), at the scenario-A state right after a
successful completion with a non-empty path: the completed current job has a
non-empty resolved file path. -/
theorem completed_error_fields_ok_witness :
    ∃ p, ({ id := 0, url := "u1", title := "t1", path := "/tmp", mode := "mp4",
            status := .completed, progress := 100, error_message := none,
            file_path := some "/tmp/u1.mp4", video_id := none } : QueueItem).file_path
        = some p ∧ p ≠ "" :=
  (completed_error_fields_ok true scA2
    (show Reachable goodExecutor (initState true) scA2 from
      Reachable.step (Act.completeCb 0 true "ok" (some "/tmp/u1.mp4"))
        (Reachable.step Act.worker
          (Reachable.step Act.worker
            (Reachable.step Act.worker
              (Reachable.step (Act.addJob "u1" "t1" "/tmp" "mp4" none)
                Reachable.refl trivial)
              trivial)
            trivial)
          trivial)
        ⟨fun _ => ⟨"/tmp/u1.mp4", rfl, by decide⟩, fun hf => Bool.noConfusion hf⟩)
    _ (List.mem_cons_self _ _)).1 rfl

theorem midIds_of_pc_idle {s : QMState} (h : s.pc = WorkerPC.idle) :
    midIds s = [] := by
  unfold midIds midIdsAux; rw [h]

theorem midIds_of_pc_top {s : QMState} (h : s.pc = WorkerPC.top) :
    midIds s = [] := by
  unfold midIds midIdsAux; rw [h]

theorem midIds_of_pc_waiting {s : QMState} (h : s.pc = WorkerPC.waiting) :
    midIds s = [] := by
  unfold midIds midIdsAux; rw [h]

theorem midIds_of_pc_clearCur {s : QMState} (h : s.pc = WorkerPC.clearCur) :
    midIds s = [] := by
  unfold midIds midIdsAux; rw [h]

theorem midIds_of_pc_popped {s : QMState} (h : s.pc = WorkerPC.popped) :
    midIds s = (s.current_item.map QueueItem.id).toList := by
  unfold midIds midIdsAux; rw [h]

theorem midIds_of_pc_procStart {s : QMState} (h : s.pc = WorkerPC.procStart) :
    midIds s = (s.current_item.map QueueItem.id).toList := by
  unfold midIds midIdsAux; rw [h]

theorem midIds_congr {s s2 : QMState} (hpc : s2.pc = s.pc)
    (hid : s2.current_item.map QueueItem.id = s.current_item.map QueueItem.id) :
    midIds s2 = midIds s := by
  unfold midIds
  rw [hpc, hid]

theorem startWorker_pc_cases (s : QMState) :
    (startWorker s).pc = s.pc ∨
    ((startWorker s).pc = WorkerPC.top ∧ s.pc = WorkerPC.idle) := by
  unfold startWorker
  split
  · exact Or.inl rfl
  · rename_i h
    exact Or.inr ⟨rfl, not_not.mp h⟩

theorem startWorker_stop_of_false {s : QMState} (h : s.stop_event = false) :
    (startWorker s).stop_event = false := by
  unfold startWorker
  split
  · exact h
  · rfl

theorem fifoInv_add {s : QMState} (inv : FifoInv s)
    (u t p m : String) (v : Option String) :
    FifoInv (add_item s u t p m v).2 := by
  set item : QueueItem :=
    { id := s.next_id, url := u, title := t, path := p, mode := m,
      video_id := v } with hitem
  set x : QMState :=
    { s with queue := s.queue ++ [item], next_id := s.next_id + 1,
             add_log := s.add_log ++ [s.next_id] } with hx
  have hres : (add_item s u t p m v).2 = startWorker x := rfl
  rw [hres]
  have hpcmid : midIds (startWorker x) = midIds s ∨
      ((startWorker x).pc = WorkerPC.top ∧ midIds s = []) := by
    rcases startWorker_pc_cases x with h1 | h2
    · left
      exact midIds_congr (h1.trans rfl) (by rw [startWorker_current_item])
    · right
      exact ⟨h2.1, midIds_of_pc_idle h2.2⟩
  have hmid : midIds (startWorker x) = midIds s := by
    rcases hpcmid with h1 | ⟨htop, hnil⟩
    · exact h1
    · rw [midIds_of_pc_top htop, hnil]
  refine ⟨?_, ?_, ?_, ?_, ?_, ?_, ?_, ?_, ?_, ?_, ?_⟩
  · rw [startWorker_dm]; exact inv.dm_true
  · rw [startWorker_paused]; exact inv.not_paused
  · exact startWorker_stop_of_false (inv.not_stopped)
  · rw [startWorker_exec_log, startWorker_queue, startWorker_add_log, hmid]
    show s.exec_log ++ (midIds s ++ idsOf (s.queue ++ [item])) =
      s.add_log ++ [s.next_id]
    have hids : idsOf (s.queue ++ [item]) = idsOf s.queue ++ [s.next_id] := by
      unfold idsOf
      rw [List.map_append]
      rfl
    rw [hids, ← inv.log_eq]
    simp [List.append_assoc]
  · intro it hit
    rw [startWorker_queue] at hit
    rcases List.mem_append.mp hit with h1 | h2
    · exact inv.queue_queued it h1
    · rw [List.mem_singleton.mp h2]
  · intro it hit
    rw [startWorker_queue] at hit
    rw [startWorker_next_id]
    rcases List.mem_append.mp hit with h1 | h2
    · exact Nat.lt_succ_of_lt (inv.queue_fresh it h1)
    · rw [List.mem_singleton.mp h2]
      exact Nat.lt_succ_self _
  · intro it hit
    rw [startWorker_current_item] at hit
    rw [startWorker_next_id]
    exact Nat.lt_succ_of_lt (inv.cur_fresh it hit)
  · intro d hd
    rw [startWorker_inflight] at hd
    rw [startWorker_next_id]
    exact Nat.lt_succ_of_lt (inv.inflight_fresh d hd)
  · rw [startWorker_queue]
    show (idsOf (s.queue ++ [item])).Nodup
    unfold idsOf
    rw [List.map_append]
    rw [List.nodup_append]
    refine ⟨inv.queue_nodup, List.nodup_singleton _, ?_⟩
    intro a ha hb
    have ha2 : a < s.next_id := by
      obtain ⟨q, hq, rfl⟩ := List.mem_map.mp ha
      exact inv.queue_fresh q hq
    have hb2 : a = s.next_id := by simpa using hb
    omega
  · intro it hit
    rw [startWorker_queue] at hit
    have hinf : (startWorker x).inflight = s.inflight := startWorker_inflight x
    unfold inflightHas
    rw [hinf]
    rcases List.mem_append.mp hit with h1 | h2
    · exact inv.queue_not_inflight it h1
    · rw [List.mem_singleton.mp h2]
      rw [List.any_eq_false]
      intro d hd
      have := inv.inflight_fresh d hd
      simp only [beq_iff_eq]
      omega
  · intro it hdisj hcur
    rw [startWorker_current_item] at hcur
    have hpceq : (startWorker x).pc = s.pc := by
      rcases startWorker_pc_cases x with h1 | ⟨htop, hidle⟩
      · exact h1
      · rw [htop] at hdisj
        rcases hdisj with hh | hh <;> cases hh
    rw [hpceq] at hdisj
    obtain ⟨hq, hinf, hnot⟩ := inv.mid_ok it hdisj hcur
    refine ⟨hq, ?_, ?_⟩
    · unfold inflightHas
      rw [startWorker_inflight]
      exact hinf
    · rw [startWorker_queue]
      unfold idsOf
      rw [List.map_append]
      intro hmem
      rcases List.mem_append.mp hmem with h1 | h2
      · exact hnot h1
      · have h3 : it.id = s.next_id := by simpa using h2
        have h4 : it.id < s.next_id := inv.cur_fresh it hcur
        omega

theorem fifoInv_worker {s : QMState} (inv : FifoInv s) :
    FifoInv (workerStep s) := by
  cases hpc : s.pc
  case idle =>
    simp only [workerStep, hpc]
    exact inv
  case top =>
    simp only [workerStep, hpc]
    split
    · rename_i hstop
      rw [inv.not_stopped] at hstop
      exact Bool.noConfusion hstop
    · split
      · rename_i hpau
        rw [inv.not_paused] at hpau
        exact Bool.noConfusion hpau
      · split
        · rename_i heq
          refine ⟨inv.dm_true, inv.not_paused, inv.not_stopped, ?_,
                  inv.queue_queued, inv.queue_fresh, inv.cur_fresh,
                  inv.inflight_fresh, inv.queue_nodup, inv.queue_not_inflight, ?_⟩
          · have h0 := inv.log_eq
            rw [midIds_of_pc_top hpc] at h0
            exact h0
          · intro x hd hc
            rcases hd with hh | hh <;> cases hh
        · rename_i it rest heq
          have hmq : ∀ q ∈ rest, q ∈ s.queue := by
            intro q hq
            rw [heq]
            exact List.mem_cons_of_mem it hq
          have hhead : it ∈ s.queue := by
            rw [heq]; exact List.mem_cons_self it rest
          have hnodup2 := List.nodup_cons.mp
            (show (it.id :: idsOf rest).Nodup from by
              have h2 := inv.queue_nodup
              rw [heq] at h2
              exact h2)
          refine ⟨inv.dm_true, inv.not_paused, inv.not_stopped, ?_, ?_, ?_, ?_,
                  inv.inflight_fresh, ?_, ?_, ?_⟩
          · have h0 := inv.log_eq
            rw [midIds_of_pc_top hpc, heq] at h0
            exact h0
          · intro q hq
            exact inv.queue_queued q (hmq q hq)
          · intro q hq
            exact inv.queue_fresh q (hmq q hq)
          · intro x hx
            have hx2 : it = x := by simpa using hx
            rw [← hx2]
            exact inv.queue_fresh it hhead
          · exact hnodup2.2
          · intro q hq
            exact inv.queue_not_inflight q (hmq q hq)
          · intro x hd hx
            have hx2 : it = x := by simpa using hx
            rw [← hx2]
            exact ⟨inv.queue_queued it hhead, inv.queue_not_inflight it hhead,
                   hnodup2.1⟩
  case popped =>
    simp only [workerStep, hpc]
    split
    · rename_i it heq
      split
      · rename_i hcanc
        have hq := (inv.mid_ok it (Or.inl hpc) heq).1
        rw [hq] at hcanc
        exact DownloadStatus.noConfusion hcanc
      · refine ⟨inv.dm_true, inv.not_paused, inv.not_stopped, ?_,
                inv.queue_queued, inv.queue_fresh, inv.cur_fresh,
                inv.inflight_fresh, inv.queue_nodup, inv.queue_not_inflight, ?_⟩
        · have h0 := inv.log_eq
          rw [midIds_of_pc_popped hpc] at h0
          show s.exec_log ++
            ((s.current_item.map QueueItem.id).toList ++ idsOf s.queue) = s.add_log
          exact h0
        · intro x hd hc
          exact inv.mid_ok x (Or.inl hpc) hc
    · rename_i heq
      refine ⟨inv.dm_true, inv.not_paused, inv.not_stopped, ?_,
              inv.queue_queued, inv.queue_fresh, inv.cur_fresh,
              inv.inflight_fresh, inv.queue_nodup, inv.queue_not_inflight, ?_⟩
      · have h0 := inv.log_eq
        rw [midIds_of_pc_popped hpc, heq] at h0
        exact h0
      · intro x hd hc
        rcases hd with hh | hh <;> cases hh
  case procStart =>
    simp only [workerStep, hpc]
    split
    · rename_i hdm
      rw [inv.dm_true] at hdm
      exact Bool.noConfusion hdm
    · split
      · rename_i hdm it heq
        obtain ⟨hst, hinf0, hnot⟩ := inv.mid_ok it (Or.inr hpc) heq
        have hm : midIds s = [it.id] := by
          rw [midIds_of_pc_procStart hpc, heq]
          rfl
        refine ⟨inv.dm_true, inv.not_paused, inv.not_stopped, ?_,
                inv.queue_queued, inv.queue_fresh, ?_, ?_,
                inv.queue_nodup, ?_, ?_⟩
        · show s.exec_log ++ [it.id] ++ ([] ++ idsOf s.queue) = s.add_log
          have h0 := inv.log_eq
          rw [hm] at h0
          simp only [List.append_assoc, List.nil_append]
          simpa [List.append_assoc] using h0
        · intro x hx
          have hx2 : ({ it with status := DownloadStatus.downloading } : QueueItem) = x := by
            simpa using hx
          rw [← hx2]
          show it.id < s.next_id
          exact inv.cur_fresh it heq
        · intro d hd
          rcases List.mem_append.mp hd with h1 | h2
          · exact inv.inflight_fresh d h1
          · rw [List.mem_singleton.mp h2]
            show it.id < s.next_id
            exact inv.cur_fresh it heq
        · intro q hq
          show (s.inflight ++ [(⟨it.id, false⟩ : InFlight)]).any (fun d => d.id == q.id) = false
          rw [List.any_append]
          have h1 : s.inflight.any (fun d => d.id == q.id) = false :=
            inv.queue_not_inflight q hq
          have h2 : q.id ≠ it.id := by
            intro hcontra
            apply hnot
            rw [← hcontra]
            exact List.mem_map_of_mem QueueItem.id hq
          rw [h1]
          simp [h2.symm]
        · intro x hd hc
          rcases hd with hh | hh <;> cases hh
      · rename_i hdm heq
        refine ⟨inv.dm_true, inv.not_paused, inv.not_stopped, ?_,
                inv.queue_queued, inv.queue_fresh, inv.cur_fresh,
                inv.inflight_fresh, inv.queue_nodup, inv.queue_not_inflight, ?_⟩
        · have h0 := inv.log_eq
          rw [midIds_of_pc_procStart hpc, heq] at h0
          exact h0
        · intro x hd hc
          rcases hd with hh | hh <;> cases hh
  case waiting =>
    simp only [workerStep, hpc]
    split
    · rename_i it heq
      split
      · refine ⟨inv.dm_true, inv.not_paused, inv.not_stopped, ?_,
                inv.queue_queued, inv.queue_fresh, inv.cur_fresh,
                inv.inflight_fresh, inv.queue_nodup, inv.queue_not_inflight, ?_⟩
        · have h0 := inv.log_eq
          rw [midIds_of_pc_waiting hpc] at h0
          exact h0
        · intro x hd hc
          rcases hd with hh | hh <;> cases hh
      · split
        · rename_i hstop
          rw [inv.not_stopped] at hstop
          exact Bool.noConfusion hstop
        · split
          · rename_i hpau
            rw [inv.not_paused] at hpau
            exact Bool.noConfusion hpau
          · exact inv
    · rename_i heq
      refine ⟨inv.dm_true, inv.not_paused, inv.not_stopped, ?_,
              inv.queue_queued, inv.queue_fresh, inv.cur_fresh,
              inv.inflight_fresh, inv.queue_nodup, inv.queue_not_inflight, ?_⟩
      · have h0 := inv.log_eq
        rw [midIds_of_pc_waiting hpc] at h0
        exact h0
      · intro x hd hc
        rcases hd with hh | hh <;> cases hh
  case clearCur =>
    simp only [workerStep, hpc]
    refine ⟨inv.dm_true, inv.not_paused, inv.not_stopped, ?_,
            inv.queue_queued, inv.queue_fresh, ?_,
            inv.inflight_fresh, inv.queue_nodup, inv.queue_not_inflight, ?_⟩
    · have h0 := inv.log_eq
      rw [midIds_of_pc_clearCur hpc] at h0
      exact h0
    · intro x hx
      cases hx
    · intro x hd hc
      rcases hd with hh | hh <;> cases hh

theorem fifoInv_progress {s : QMState} (inv : FifoInv s) (i : Nat) (pct : Rat) :
    FifoInv (fire_progress s i pct) := by
  unfold fire_progress
  split
  · split
    · rename_i c heq
      split
      · rename_i hid
        refine ⟨inv.dm_true, inv.not_paused, inv.not_stopped, ?_,
                inv.queue_queued, inv.queue_fresh, ?_,
                inv.inflight_fresh, inv.queue_nodup, inv.queue_not_inflight, ?_⟩
        · have h0 := inv.log_eq
          rw [show midIds s = midIdsAux s.pc (some c.id) from by
            unfold midIds; rw [heq]; rfl] at h0
          exact h0
        · intro x hx
          have hx2 : ({ c with progress := pct } : QueueItem) = x := by
            simpa using hx
          rw [← hx2]
          show c.id < s.next_id
          exact inv.cur_fresh c heq
        · intro x hd hx
          have hx2 : ({ c with progress := pct } : QueueItem) = x := by
            simpa using hx
          rw [← hx2]
          obtain ⟨h1, h2, h3⟩ := inv.mid_ok c hd heq
          exact ⟨h1, h2, h3⟩
      · exact ⟨inv.dm_true, inv.not_paused, inv.not_stopped, inv.log_eq,
               inv.queue_queued, inv.queue_fresh, inv.cur_fresh,
               inv.inflight_fresh, inv.queue_nodup, inv.queue_not_inflight,
               inv.mid_ok⟩
    · exact ⟨inv.dm_true, inv.not_paused, inv.not_stopped, inv.log_eq,
             inv.queue_queued, inv.queue_fresh, inv.cur_fresh,
             inv.inflight_fresh, inv.queue_nodup, inv.queue_not_inflight,
             inv.mid_ok⟩
  · exact inv

theorem fifoInv_complete {s : QMState} (inv : FifoInv s) (i : Nat) (ok : Bool)
    (m : String) (fp : Option String) :
    FifoInv (fire_complete s i ok m fp) := by
  unfold fire_complete
  split
  · rename_i hunf
    have hfresh : ∀ d ∈ markFired s.inflight i, d.id < s.next_id :=
      markFired_id_lt inv.inflight_fresh
    have hqni : ∀ it ∈ s.queue,
        (markFired s.inflight i).any (fun d => d.id == it.id) = false := by
      intro it hit
      rw [markFired_any_id]
      exact inv.queue_not_inflight it hit
    split
    · rename_i c heq
      split
      · rename_i hid
        have hcid : c.id = i := by simpa using hid
        have hcontra : ∀ (x : QueueItem),
            (s.pc = WorkerPC.popped ∨ s.pc = WorkerPC.procStart) → False := by
          intro x hd
          have h1 : inflightHas s i = true := inflightHas_of_unfired hunf
          have h2 := (inv.mid_ok c hd heq).2.1
          rw [← hcid] at h1
          rw [h2] at h1
          exact Bool.noConfusion h1
        split
        · refine ⟨inv.dm_true, inv.not_paused, inv.not_stopped, ?_,
                  inv.queue_queued, inv.queue_fresh, ?_, hfresh,
                  inv.queue_nodup, hqni, ?_⟩
          · have h0 := inv.log_eq
            rw [show midIds s = midIdsAux s.pc (some c.id) from by
              unfold midIds; rw [heq]; rfl] at h0
            exact h0
          · intro x hx
            have hx2 : ({ c with status := DownloadStatus.completed,
                                 progress := 100, file_path := fp } : QueueItem) = x := by
              simpa using hx
            rw [← hx2]
            show c.id < s.next_id
            exact inv.cur_fresh c heq
          · intro x hd hx
            exact absurd hd (fun hdd => hcontra x hdd)
        · refine ⟨inv.dm_true, inv.not_paused, inv.not_stopped, ?_,
                  inv.queue_queued, inv.queue_fresh, ?_, hfresh,
                  inv.queue_nodup, hqni, ?_⟩
          · have h0 := inv.log_eq
            rw [show midIds s = midIdsAux s.pc (some c.id) from by
              unfold midIds; rw [heq]; rfl] at h0
            exact h0
          · intro x hx
            have hx2 : ({ c with status := DownloadStatus.error,
                                 error_message := some m,
                                 progress := 0 } : QueueItem) = x := by
              simpa using hx
            rw [← hx2]
            show c.id < s.next_id
            exact inv.cur_fresh c heq
          · intro x hd hx
            exact absurd hd (fun hdd => hcontra x hdd)
      · refine ⟨inv.dm_true, inv.not_paused, inv.not_stopped, inv.log_eq,
                inv.queue_queued, inv.queue_fresh, inv.cur_fresh, hfresh,
                inv.queue_nodup, hqni, ?_⟩
        · intro x hd hx
          obtain ⟨h1, h2, h3⟩ := inv.mid_ok x hd hx
          refine ⟨h1, ?_, h3⟩
          show (markFired s.inflight i).any (fun d => d.id == x.id) = false
          rw [markFired_any_id]
          exact h2
    · rename_i heq
      refine ⟨inv.dm_true, inv.not_paused, inv.not_stopped, inv.log_eq,
              inv.queue_queued, inv.queue_fresh, inv.cur_fresh, hfresh,
              inv.queue_nodup, hqni, ?_⟩
      · intro x hd hx
        obtain ⟨h1, h2, h3⟩ := inv.mid_ok x hd hx
        refine ⟨h1, ?_, h3⟩
        show (markFired s.inflight i).any (fun d => d.id == x.id) = false
        rw [markFired_any_id]
        exact h2
  · exact inv

/-- Claim C6. Starting from a fresh manager with the download manager injected,
under any interleaving of `add_item` calls, worker micro-steps and executor
callbacks (the claim's scenario: no pause/resume/remove/clear), the sequence
of executor invocations is always a prefix of the sequence of accepted jobs:
the executor runs the jobs in exactly the order they were added.  `add_item`
appends to the tail (line 103) and the Worker Loop pops from the head
(line 253). -/
theorem fifo_execution_order (s : QMState)
    (h : Reachable fifoActs (initState true) s) :
    ∃ t, s.add_log = s.exec_log ++ t := by
  have inv : FifoInv s := by
    induction h with
    | refl =>
      refine ⟨rfl, rfl, rfl, rfl, ?_, ?_, ?_, ?_, ?_, ?_, ?_⟩
      · intro it hit; cases hit
      · intro it hit; cases hit
      · intro it hit; cases hit
      · intro d hd; cases hd
      · exact List.Pairwise.nil
      · intro it hit; cases hit
      · intro it hd hc; cases hc
    | step a hr hall ih =>
      cases a with
      | addJob u t p m v => exact fifoInv_add ih u t p m v
      | pauseQ => cases hall
      | resumeQ => cases hall
      | removeJob i => cases hall
      | clearDone => cases hall
      | worker => exact fifoInv_worker ih
      | progressCb i pct => exact fifoInv_progress ih i pct
      | completeCb i ok m fp => exact fifoInv_complete ih i ok m fp
  exact ⟨midIds s ++ idsOf s.queue, inv.log_eq.symm⟩

/-- Witness for C6: after two adds and the worker popping and launching the
first job, the executor log `[0]` is a prefix of the accepted-job log
`[0, 1]`. -/
theorem fifo_execution_order_witness :
    ∃ t, (applyAct (applyAct (applyAct (applyAct (applyAct (initState true)
        (Act.addJob "a" "" "" "mp4" none)) (Act.addJob "b" "" "" "mp3" none))
        Act.worker) Act.worker) Act.worker).add_log =
      (applyAct (applyAct (applyAct (applyAct (applyAct (initState true)
        (Act.addJob "a" "" "" "mp4" none)) (Act.addJob "b" "" "" "mp3" none))
        Act.worker) Act.worker) Act.worker).exec_log ++ t :=
  fifo_execution_order _
    (Reachable.step Act.worker (Reachable.step Act.worker (Reachable.step Act.worker
      (Reachable.step (Act.addJob "b" "" "" "mp3" none)
        (Reachable.step (Act.addJob "a" "" "" "mp4" none)
          Reachable.refl trivial) trivial) trivial) trivial) trivial)
